import Mathlib

set_option maxHeartbeats 1000000

namespace Gitmap

/-- Blob payload: a sequence of bytes. -/
abbrev Bytes := List Nat

mutual

/-- Git object. The store is content-addressed with an injective hash, so an
object id is modelled as the object value itself: two objects have the same id
exactly when they have the same content, as with real git oids. -/
inductive GObj : Type where
  | blob (data : List Nat) : GObj
  | tree (entries : EntList) : GObj
  | commit (tr : GObj) (parents : ObjList) (message : String) : GObj

/-- Entry list of a tree object: each entry is a name with a target id and a
filemode. -/
inductive EntList : Type where
  | nil : EntList
  | cons (name : String) (oid : GObj) (mode : Nat) (rest : EntList) : EntList

/-- List of object ids (commit parents). -/
inductive ObjList : Type where
  | nil : ObjList
  | cons (o : GObj) (rest : ObjList) : ObjList

end

deriving instance DecidableEq for GObj
deriving instance DecidableEq for EntList
deriving instance DecidableEq for ObjList
deriving instance DecidableEq for Except

/-- Errors of the underlying store that reach the API surface. -/
inductive GitError : Type where
  | notFound : GitError
  | unborn : GitError
  | isActive : GitError
deriving DecidableEq

/-- Result of an operation that may also panic (a Rust unwrap of None). -/
inductive PResult (α : Type) : Type where
  | ok (a : α) : PResult α
  | err (e : GitError) : PResult α
  | panicked : PResult α
deriving DecidableEq

/-- Repository handle: the on-disk store state (local branch refs and the HEAD
symbolic reference) together with the handle's only mutable field, the pending
tree reference `tree_id`. -/
structure Repo : Type where
  branches : List (String × GObj)
  head : String
  tree_id : Option GObj
deriving DecidableEq

/-- First entry for a name in a tree (git Tree::get_name). -/
def entLookup : EntList → String → Option (GObj × Nat)
  | .nil, _ => none
  | .cons k v m t, n => if k = n then some (v, m) else entLookup t n

/-- Replace the first entry for a name, or append a new one (git treebuilder
insert). -/
def entInsert : EntList → String → GObj → Nat → EntList
  | .nil, n, v, m => .cons n v m .nil
  | .cons k w mo t, n, v, m =>
    if k = n then .cons n v m t else .cons k w mo (entInsert t n v m)

/-- Remove every entry for a name (git treebuilder remove). -/
def entRemove : EntList → String → EntList
  | .nil, _ => .nil
  | .cons k w mo t, n => if k = n then entRemove t n else .cons k w mo (entRemove t n)

/-- Names of the entries of a tree, in order. -/
def entNames : EntList → List String
  | .nil => []
  | .cons k _ _ t => k :: entNames t

/-- First association for a name in an association list. -/
def assocLookup {α : Type} : List (String × α) → String → Option α
  | [], _ => none
  | (k, v) :: t, n => if k = n then some v else assocLookup t n

/-- Replace the first association for a name, or append a new one; models a
branch-ref update. -/
def assocInsert {α : Type} : List (String × α) → String → α → List (String × α)
  | [], n, v => [(n, v)]
  | (k, w) :: t, n, v => if k = n then (n, v) :: t else (k, w) :: assocInsert t n v

/-- Look an id up as a tree (git find_tree): fails unless the object is a tree. -/
def find_tree : GObj → Except GitError EntList
  | .tree es => .ok es
  | _ => .error .notFound

/-- Look an id up as a commit (git find_commit): its tree id, parent ids and
message. Fails unless the object is a commit. -/
def find_commit : GObj → Except GitError (GObj × ObjList × String)
  | .commit t p m => .ok (t, p, m)
  | _ => .error .notFound

/-- View an object as a blob (git Object::as_blob); none when it is not one. -/
def as_blob : GObj → Option Bytes
  | .blob d => some d
  | _ => none

/-- Models git2 Repository::is_empty: true exactly when HEAD is unborn, that
is, when the branch HEAD names does not exist. -/
def is_empty (r : Repo) : Except GitError Bool :=
  .ok (assocLookup r.branches r.head).isNone

/-- Returns true if the repository has commits; a failing is_empty answer is
swallowed into false. -/
def has_commits (r : Repo) : Bool :=
  match is_empty r with
  | .ok v => !v
  | .error _ => false

/-- Names of all local branches. -/
def branches (r : Repo) : List String :=
  r.branches.map (fun p => p.1)

/-- Returns true if the provided branch exists. -/
def has_branch (r : Repo) (name : String) : Bool :=
  decide (name ∈ branches r)

/-- Models revparse_single of HEAD: the id HEAD resolves to. -/
def last_commit_id (r : Repo) : Except GitError GObj :=
  match assocLookup r.branches r.head with
  | some c => .ok c
  | none => .error .unborn

/-- Tree id of the commit HEAD resolves to. -/
def last_tree_id (r : Repo) : Except GitError GObj :=
  match last_commit_id r with
  | .error e => .error e
  | .ok c =>
    match find_commit c with
    | .error e => .error e
    | .ok x => .ok x.1

/-- Models treebuilder(None).write(): the canonical empty tree id. -/
def empty_tree_id (_r : Repo) : Except GitError GObj :=
  .ok (.tree .nil)

/-- Current working tree id: the pending tree if set, else the empty tree when
there are no commits, else the last committed tree. -/
def current_tree_id (r : Repo) : Except GitError GObj :=
  match r.tree_id with
  | some id => .ok id
  | none => if !(has_commits r) then empty_tree_id r else last_tree_id r

/-- The base tree of every operation: find_tree of current_tree_id, with both
failures propagated. -/
def currentEntries (r : Repo) : Except GitError EntList :=
  match current_tree_id r with
  | .error e => .error e
  | .ok id => find_tree id

/-- The last committed tree: find_tree of last_tree_id. -/
def lastTreeEntries (r : Repo) : Except GitError EntList :=
  match last_tree_id r with
  | .error e => .error e
  | .ok id => find_tree id

/-- Returns true if the key exists in the current tree. -/
def has_key (r : Repo) (name : String) : Bool :=
  match currentEntries r with
  | .ok es => (entLookup es name).isSome
  | .error _ => false

/-- Models diff(current tree, none, include_unmodified): one delta per entry,
collecting each delta's old-side path. Errors degrade to the empty list. -/
def keys (r : Repo) : List String :=
  match currentEntries r with
  | .ok es => entNames es
  | .error _ => []

/-- Number of all keys. -/
def len (r : Repo) : Nat := (keys r).length

/-- Name of the working branch, none when HEAD is unborn. -/
def branch (r : Repo) : Option String :=
  match assocLookup r.branches r.head with
  | some _ => some r.head
  | none => none

/-- Retrieves key content from the current tree; any failure yields none. -/
def key (r : Repo) (name : String) : Option Bytes :=
  match currentEntries r with
  | .error _ => none
  | .ok es =>
    match entLookup es name with
    | none => none
    | some p =>
      match as_blob p.1 with
      | some d => some d
      | none => none

/-- Paths of the deltas of diff(old, new) with default options: every name
whose (id, mode) entry differs between the two trees (git compares the entry
oids, and equal oids mean equal content here). -/
def diffNames (old new : EntList) : List String :=
  (entNames old ++ entNames new).filter
    (fun k => decide (entLookup old k ≠ entLookup new k))

/-- Returns true if any key has been changed relative to the last commit. -/
def changed (r : Repo) : Bool :=
  if !(has_commits r) then r.tree_id.isSome && decide (0 < len r)
  else
    match lastTreeEntries r with
    | .error _ => false
    | .ok old =>
      match currentEntries r with
      | .error _ => false
      | .ok new => decide (0 < (diffNames old new).length)

/-- Returns true if the key's content has been changed relative to the last
commit; a delta matches when its new-side path equals the name. -/
def key_changed (r : Repo) (name : String) : Bool :=
  if !(has_commits r) then has_key r name
  else
    match lastTreeEntries r with
    | .error _ => false
    | .ok old =>
      match currentEntries r with
      | .error _ => false
      | .ok new => decide (name ∈ diffNames old new)

/-- Stages a key for commit: writes a blob for the value and rebuilds the base
tree with the entry replaced, then updates the pending tree reference. -/
def insert_key (r : Repo) (name : String) (value : Bytes) : Except GitError Repo :=
  match currentEntries r with
  | .error e => .error e
  | .ok es =>
    .ok ⟨r.branches, r.head, some (.tree (entInsert es name (GObj.blob value) 33188))⟩

/-- Resets all keys by clearing the pending tree reference. -/
def reset (r : Repo) : Except GitError Repo :=
  .ok ⟨r.branches, r.head, none⟩

/-- Removes all keys: rebuilds the base tree with every enumerated key removed. -/
def remove (r : Repo) : Except GitError Repo :=
  match currentEntries r with
  | .error e => .error e
  | .ok es =>
    .ok ⟨r.branches, r.head, some (.tree ((keys r).foldl (fun acc k => entRemove acc k) es))⟩

/-- Commits the current tree on HEAD, with the previous HEAD commit as the
single parent when one exists; updates (or creates) the HEAD branch ref. The
pending tree reference is left untouched. -/
def commit (r : Repo) (message : String) : Except GitError Repo :=
  match current_tree_id r with
  | .error e => .error e
  | .ok tid =>
    match find_tree tid with
    | .error e => .error e
    | .ok _ =>
      if !(has_commits r) then
        .ok ⟨assocInsert r.branches r.head (GObj.commit tid .nil message), r.head, r.tree_id⟩
      else
        match last_commit_id r with
        | .error e => .error e
        | .ok pc =>
          match find_commit pc with
          | .error e => .error e
          | .ok _ =>
            .ok ⟨assocInsert r.branches r.head (GObj.commit tid (.cons pc .nil) message),
                 r.head, r.tree_id⟩

/-- Restores a key to its last committed value: removes it from the base tree
and, when the last committed tree still holds it, reinserts the committed blob
content as a fresh blob. The unwrap of as_blob in the source panics when the
committed entry is not a blob, modelled by the panicked result. -/
def reset_key (r : Repo) (name : String) : PResult Repo :=
  match currentEntries r with
  | .error e => .err e
  | .ok es =>
    let es1 := if has_key r name then entRemove es name else es
    if has_commits r then
      match lastTreeEntries r with
      | .error e => .err e
      | .ok les =>
        match entLookup les name with
        | some p =>
          match as_blob p.1 with
          | some d =>
            .ok ⟨r.branches, r.head, some (.tree (entInsert es1 name (GObj.blob d) 33188))⟩
          | none => .panicked
        | none => .ok ⟨r.branches, r.head, some (.tree es1)⟩
    else .ok ⟨r.branches, r.head, some (.tree es1)⟩

/-- Stages a key for removal; a no-op when the key is absent. -/
def remove_key (r : Repo) (name : String) : Except GitError Repo :=
  if has_key r name then
    match currentEntries r with
    | .error e => .error e
    | .ok es => .ok ⟨r.branches, r.head, some (.tree (entRemove es name))⟩
  else .ok r

/-- Ensures a working branch: creates it at the current HEAD commit when it
does not exist, then repoints HEAD at it. -/
def switch_branch (r : Repo) (name : String) : Except GitError Repo :=
  if !(has_branch r name) then
    match last_commit_id r with
    | .error e => .error e
    | .ok cid =>
      match find_commit cid with
      | .error e => .error e
      | .ok _ => .ok ⟨assocInsert r.branches name cid, name, r.tree_id⟩
  else .ok ⟨r.branches, name, r.tree_id⟩

/-- Models Repo::open on the same path: the on-disk state persists while the
fresh handle starts with no pending tree reference. -/
def reopen (r : Repo) : Repo := ⟨r.branches, r.head, none⟩

/-! Basic facts about the tree and association primitives. -/

theorem entLookup_entInsert_self : ∀ (es : EntList) (n : String) (v : GObj) (m : Nat),
    entLookup (entInsert es n v m) n = some (v, m)
  | .nil, n, v, m => by simp [entInsert, entLookup]
  | .cons k w mo t, n, v, m => by
    by_cases hk : k = n
    · simp [entInsert, entLookup, hk]
    · simp [entInsert, entLookup, hk, entLookup_entInsert_self t n v m]

theorem entLookup_entInsert_ne : ∀ (es : EntList) (n : String) (v : GObj) (m : Nat)
    (q : String), q ≠ n → entLookup (entInsert es n v m) q = entLookup es q
  | .nil, n, v, m, q, h => by
    have hnq : ¬n = q := fun hh => h hh.symm
    simp [entInsert, entLookup, hnq]
  | .cons k w mo t, n, v, m, q, h => by
    by_cases hk : k = n
    · have hnq : ¬n = q := fun hh => h hh.symm
      have hkq : ¬k = q := by rw [hk]; exact hnq
      simp [entInsert, entLookup, hk, hnq, hkq]
    · by_cases hq : k = q
      · simp [entInsert, entLookup, hk, hq, h]
      · simp [entInsert, entLookup, hk, hq, entLookup_entInsert_ne t n v m q h]

theorem entLookup_entRemove_self : ∀ (es : EntList) (n : String),
    entLookup (entRemove es n) n = none
  | .nil, n => by simp [entRemove, entLookup]
  | .cons k w mo t, n => by
    by_cases hk : k = n
    · simp [entRemove, hk, entLookup_entRemove_self t n]
    · simp [entRemove, entLookup, hk, entLookup_entRemove_self t n]

theorem entLookup_entRemove_ne : ∀ (es : EntList) (n : String) (q : String), q ≠ n →
    entLookup (entRemove es n) q = entLookup es q
  | .nil, n, q, h => by simp [entRemove]
  | .cons k w mo t, n, q, h => by
    by_cases hk : k = n
    · have hnq : ¬n = q := fun hh => h hh.symm
      simp [entRemove, entLookup, hk, hnq, entLookup_entRemove_ne t n q h]
    · by_cases hq : k = q
      · simp [entRemove, entLookup, hk, hq, h]
      · simp [entRemove, entLookup, hk, hq, entLookup_entRemove_ne t n q h]

theorem assocLookup_assocInsert_self {α : Type} (l : List (String × α)) (n : String) (v : α) :
    assocLookup (assocInsert l n v) n = some v := by
  induction l with
  | nil => simp [assocInsert, assocLookup]
  | cons p t ih =>
    by_cases hk : p.1 = n
    · simp [assocInsert, assocLookup, hk]
    · simp [assocInsert, assocLookup, hk, ih]

theorem entLookup_mem_entNames : ∀ (es : EntList) (q : String) (p : GObj × Nat),
    entLookup es q = some p → q ∈ entNames es
  | .nil, q, p, h => by simp [entLookup] at h
  | .cons k w mo t, q, p, h => by
    by_cases hk : k = q
    · simp [entNames, hk]
    · simp [entLookup, hk] at h
      simp [entNames]
      exact Or.inr (entLookup_mem_entNames t q p h)

theorem entNames_length_pos_iff (es : EntList) :
    0 < (entNames es).length ↔ es ≠ .nil := by
  cases es <;> simp [entNames]

theorem entInsert_names_pos (es : EntList) (n : String) (v : GObj) (m : Nat) :
    0 < (entNames (entInsert es n v m)).length := by
  cases es with
  | nil => simp [entInsert, entNames]
  | cons k w mo t =>
    by_cases hk : k = n <;> simp [entInsert, entNames, hk]

theorem mem_diffNames (old new : EntList) (k : String) :
    k ∈ diffNames old new ↔
      ((k ∈ entNames old ∨ k ∈ entNames new) ∧ entLookup old k ≠ entLookup new k) := by
  simp [diffNames, List.mem_filter, List.mem_append]
  tauto

theorem diffNames_self (es : EntList) : diffNames es es = [] := by
  simp [diffNames]

theorem mem_diffNames_of_ne (old new : EntList) (k : String)
    (h : entLookup old k ≠ entLookup new k) : k ∈ diffNames old new := by
  rw [mem_diffNames]
  refine ⟨?_, h⟩
  cases ho : entLookup old k with
  | some p => exact Or.inl (entLookup_mem_entNames old k p ho)
  | none =>
    cases hn : entLookup new k with
    | some p => exact Or.inr (entLookup_mem_entNames new k p hn)
    | none => exact absurd (ho.trans hn.symm) h

theorem diffNames_length_pos (old new : EntList) (k : String)
    (h : entLookup old k ≠ entLookup new k) : 0 < (diffNames old new).length :=
  List.length_pos.mpr (List.ne_nil_of_mem (mem_diffNames_of_ne old new k h))

theorem as_blob_eq_some (o : GObj) (d : Bytes) (h : as_blob o = some d) : o = .blob d := by
  cases o <;> simp [as_blob] at h
  rw [h]

theorem has_commits_eq (r : Repo) :
    has_commits r = !(assocLookup r.branches r.head).isNone := rfl

theorem lastTreeEntries_ok_has_commits (r : Repo) (les : EntList)
    (h : lastTreeEntries r = .ok les) : has_commits r = true := by
  rw [has_commits_eq]
  cases hb : assocLookup r.branches r.head with
  | some c => simp
  | none => simp [lastTreeEntries, last_tree_id, last_commit_id, hb] at h

theorem key_pending_tree (b : List (String × GObj)) (hd : String) (X : EntList)
    (n : String) :
    key (⟨b, hd, some (.tree X)⟩ : Repo) n =
      (match entLookup X n with
       | none => none
       | some p =>
         match as_blob p.1 with
         | some d => some d
         | none => none) := rfl

theorem key_reopen_no_commits (r : Repo) (hc : has_commits r = false) (n : String) :
    key (reopen r) n = none := by
  have hc2 : has_commits (⟨r.branches, r.head, none⟩ : Repo) = false := hc
  simp [key, currentEntries, current_tree_id, reopen, hc2, empty_tree_id, find_tree,
    entLookup]

theorem currentEntries_reopen (r : Repo) (hc : has_commits r = true) :
    currentEntries (reopen r) = lastTreeEntries r := by
  have hc2 : has_commits (⟨r.branches, r.head, none⟩ : Repo) = true := hc
  simp [currentEntries, current_tree_id, reopen, hc2]
  rfl

theorem key_reopen_of_last (r : Repo) (les : EntList) (hc : has_commits r = true)
    (hlt : lastTreeEntries r = .ok les) (n : String) :
    key (reopen r) n =
      (match entLookup les n with
       | none => none
       | some p =>
         match as_blob p.1 with
         | some d => some d
         | none => none) := by
  have hcur : currentEntries (reopen r) = .ok les := (currentEntries_reopen r hc).trans hlt
  simp [key, hcur]

theorem entLookup_eq_none_of_has_key_false (r : Repo) (es : EntList) (n : String)
    (hce : currentEntries r = .ok es) (hk : has_key r n = false) :
    entLookup es n = none := by
  cases ho : entLookup es n with
  | none => rfl
  | some p => simp [has_key, hce, ho] at hk

theorem key_reopen_after (b : List (String × GObj)) (hd : String) (es : EntList)
    (k : String) (v : Bytes) (pl : ObjList) (msg : String) :
    key (reopen ⟨assocInsert b hd
        (GObj.commit (.tree (entInsert es k (.blob v) 33188)) pl msg), hd,
        some (.tree (entInsert es k (.blob v) 33188))⟩) k = some v := by
  have hlk : assocLookup (assocInsert b hd
      (GObj.commit (.tree (entInsert es k (.blob v) 33188)) pl msg)) hd =
      some (GObj.commit (.tree (entInsert es k (.blob v) 33188)) pl msg) :=
    assocLookup_assocInsert_self _ _ _
  simp [reopen, key, currentEntries, current_tree_id, has_commits_eq, hlk,
    last_tree_id, last_commit_id, find_commit, find_tree, entLookup_entInsert_self,
    as_blob]

/-! Theorems about the claims. -/

/-- C1: Resolution invariant: the current tree id is the pending tree
reference when one is set; otherwise the canonical empty tree when the
repository has no commits; otherwise exactly the tree of the commit HEAD
resolves to, with resolution failures propagated to the caller, so the empty
tree is never silently substituted in any other case. -/
theorem c1_resolution_invariant (r : Repo) :
    (∀ id, r.tree_id = some id → current_tree_id r = .ok id) ∧
    (r.tree_id = none → has_commits r = false →
       current_tree_id r = .ok (GObj.tree .nil)) ∧
    (r.tree_id = none → has_commits r = true →
       current_tree_id r = last_tree_id r) ∧
    (∀ e, r.tree_id = none → has_commits r = true → last_tree_id r = .error e →
       current_tree_id r = .error e) := by
  refine ⟨?_, ?_, ?_, ?_⟩
  · intro id h
    simp [current_tree_id, h]
  · intro h hc
    simp [current_tree_id, h, hc, empty_tree_id]
  · intro h hc
    simp [current_tree_id, h, hc]
  · intro e h hc hl
    simp [current_tree_id, h, hc, hl]

/-- Witness for C1: a repository with a dangling HEAD commit and no pending
tree propagates the last-tree failure instead of substituting the empty tree. -/
theorem c1_resolution_invariant_witness :
    current_tree_id (⟨[("master", GObj.blob [])], "master", none⟩ : Repo) =
      .error .notFound :=
  (c1_resolution_invariant ⟨[("master", GObj.blob [])], "master", none⟩).2.2.2
    .notFound rfl rfl rfl

theorem changed_after_commit_aux (b : List (String × GObj)) (hd : String)
    (t : Option GObj) (tid : GObj) (tes : EntList) (pl : ObjList) (msg : String)
    (hft : find_tree tid = .ok tes)
    (hct : current_tree_id (⟨b, hd, t⟩ : Repo) = .ok tid) :
    changed (⟨assocInsert b hd (GObj.commit tid pl msg), hd, t⟩ : Repo) = false := by
  have hlk : assocLookup (assocInsert b hd (GObj.commit tid pl msg)) hd =
      some (GObj.commit tid pl msg) := assocLookup_assocInsert_self _ _ _
  have hc2 : has_commits (⟨assocInsert b hd (GObj.commit tid pl msg), hd, t⟩ :
      Repo) = true := by
    rw [has_commits_eq]
    simp [hlk]
  have hlast : lastTreeEntries (⟨assocInsert b hd (GObj.commit tid pl msg), hd, t⟩ :
      Repo) = .ok tes := by
    simp [lastTreeEntries, last_tree_id, last_commit_id, hlk, find_commit, hft]
  have hcur : currentEntries (⟨assocInsert b hd (GObj.commit tid pl msg), hd, t⟩ :
      Repo) = .ok tes := by
    cases t with
    | some id =>
      have hid : id = tid := by simpa [current_tree_id] using hct
      subst hid
      simp [currentEntries, current_tree_id, hft]
    | none =>
      simp [currentEntries, current_tree_id, hc2, last_tree_id, last_commit_id, hlk,
        find_commit, hft]
  simp [changed, hc2, hlast, hcur, diffNames_self]

/-- C4 counterexample: on a repository whose committed key a holds byte 49,
staging insert_key of a with the very same byte 49 succeeds, yet changed()
reports false, because the rebuilt tree has exactly the committed content; the
claim that changed() is true after insert_key of any key is therefore false. -/
theorem c4_counterexample :
    insert_key (⟨[("master", GObj.commit (.tree (.cons "a" (.blob [49]) 33188 .nil))
        .nil "")], "master", some (GObj.tree (.cons "a" (.blob [49]) 33188 .nil))⟩ :
        Repo) "a" [49] =
      .ok ⟨[("master", GObj.commit (.tree (.cons "a" (.blob [49]) 33188 .nil)) .nil "")],
        "master", some (GObj.tree (.cons "a" (.blob [49]) 33188 .nil))⟩ ∧
    changed (⟨[("master", GObj.commit (.tree (.cons "a" (.blob [49]) 33188 .nil))
        .nil "")], "master",
        some (GObj.tree (.cons "a" (.blob [49]) 33188 .nil))⟩ : Repo) = false :=
  ⟨by decide, by decide⟩

/-- C4 amended: immediately after a successful commit changed() is false;
after insert_key of a key whose staged blob-and-mode entry differs from the
key's last-committed entry (or with no commits at all) changed() is true; and
after reset_key of a key whose committed entry, if any, carries the regular
filemode, key_changed of that key is false while any other key whose current
entry differs from its committed entry still reports key_changed true. -/
theorem c4_change_detection_amended :
    (∀ (r rp : Repo) (msg : String), commit r msg = .ok rp → changed rp = false) ∧
    (∀ (r rp : Repo) (k : String) (v : Bytes), insert_key r k v = .ok rp →
       (has_commits r = false ∨
         ∃ les, lastTreeEntries r = .ok les ∧
           entLookup les k ≠ some (GObj.blob v, 33188)) →
       changed rp = true) ∧
    (∀ (r rp : Repo) (k : String), reset_key r k = .ok rp →
       (∀ les q mo, lastTreeEntries r = .ok les → entLookup les k = some (q, mo) →
          mo = 33188) →
       (key_changed rp k = false ∧
        ∀ m les es, m ≠ k → lastTreeEntries r = .ok les → currentEntries r = .ok es →
          entLookup les m ≠ entLookup es m → key_changed rp m = true)) := by
  refine ⟨?_, ?_, ?_⟩
  · intro r rp msg h
    cases hct : current_tree_id r with
    | error e => simp [commit, hct] at h
    | ok tid =>
      cases hft : find_tree tid with
      | error e => simp [commit, hct, hft] at h
      | ok tes =>
        cases hhc : has_commits r with
        | false =>
          simp [commit, hct, hft, hhc] at h
          subst h
          exact changed_after_commit_aux r.branches r.head r.tree_id tid tes .nil msg
            hft hct
        | true =>
          cases hlc : assocLookup r.branches r.head with
          | none =>
            rw [has_commits_eq] at hhc
            simp [hlc] at hhc
          | some pc =>
            cases hfc : find_commit pc with
            | error e =>
              simp [commit, hct, hft, hhc, last_commit_id, hlc, hfc] at h
            | ok x =>
              simp [commit, hct, hft, hhc, last_commit_id, hlc, hfc] at h
              subst h
              exact changed_after_commit_aux r.branches r.head r.tree_id tid tes
                (.cons pc .nil) msg hft hct
  · intro r rp k v h hcond
    cases hce : currentEntries r with
    | error e => simp [insert_key, hce] at h
    | ok es =>
      simp [insert_key, hce] at h
      subst h
      rcases hcond with hc | ⟨les, hlt, hne⟩
      · have hc2 : has_commits (⟨r.branches, r.head,
            some (GObj.tree (entInsert es k (.blob v) 33188))⟩ : Repo) = false := hc
        simp [changed, hc2, len, keys, currentEntries, current_tree_id, find_tree]
        exact entInsert_names_pos es k (GObj.blob v) 33188
      · have hc : has_commits r = true := lastTreeEntries_ok_has_commits r les hlt
        have hc2 : has_commits (⟨r.branches, r.head,
            some (GObj.tree (entInsert es k (.blob v) 33188))⟩ : Repo) = true := hc
        have hlt2 : lastTreeEntries (⟨r.branches, r.head,
            some (GObj.tree (entInsert es k (.blob v) 33188))⟩ : Repo) = .ok les := hlt
        have hcur : currentEntries (⟨r.branches, r.head,
            some (GObj.tree (entInsert es k (.blob v) 33188))⟩ : Repo) =
            .ok (entInsert es k (.blob v) 33188) := by
          simp [currentEntries, current_tree_id, find_tree]
        have hdiff : 0 < (diffNames les (entInsert es k (.blob v) 33188)).length :=
          diffNames_length_pos les (entInsert es k (.blob v) 33188) k
            (by rw [entLookup_entInsert_self]; exact hne)
        simp [changed, hc2, hlt2, hcur, hdiff]
  · intro r rp k h hmode
    cases hce : currentEntries r with
    | error e => simp [reset_key, hce] at h
    | ok es =>
      cases hhc : has_commits r with
      | false =>
        simp [reset_key, hce, hhc] at h
        subst h
        constructor
        · by_cases hk : has_key r k
          · have hre : (if has_key r k then entRemove es k else es) = entRemove es k :=
              by simp [hk]
            rw [hre]
            have hc2 : has_commits (⟨r.branches, r.head,
                some (GObj.tree (entRemove es k))⟩ : Repo) = false := hhc
            simp [key_changed, hc2, has_key, currentEntries, current_tree_id,
              find_tree, entLookup_entRemove_self]
          · have hre : (if has_key r k then entRemove es k else es) = es := by
              simp [hk]
            rw [hre]
            have hc2 : has_commits (⟨r.branches, r.head,
                some (GObj.tree es)⟩ : Repo) = false := hhc
            simp [key_changed, hc2, has_key, currentEntries, current_tree_id,
              find_tree, entLookup_eq_none_of_has_key_false r es k hce
                (Bool.not_eq_true _ ▸ hk)]
        · intro m les es2 hm hlt hcur2
          have := lastTreeEntries_ok_has_commits r les hlt
          rw [hhc] at this
          simp at this
      | true =>
        cases hlt : lastTreeEntries r with
        | error e => simp [reset_key, hce, hhc, hlt] at h
        | ok les =>
          have heq1 : ∀ m, m ≠ k →
              entLookup (if has_key r k then entRemove es k else es) m =
                entLookup es m := by
            intro m hm
            by_cases hk : has_key r k
            · simp [hk, entLookup_entRemove_ne es k m hm]
            · simp [hk]
          cases hL : entLookup les k with
          | none =>
            simp [reset_key, hce, hhc, hlt, hL] at h
            subst h
            constructor
            · have hc2 : has_commits (⟨r.branches, r.head,
                  some (GObj.tree (if has_key r k then entRemove es k else es))⟩ :
                  Repo) = true := hhc
              have hlt2 : lastTreeEntries (⟨r.branches, r.head,
                  some (GObj.tree (if has_key r k then entRemove es k else es))⟩ :
                  Repo) = .ok les := hlt
              have hcur : currentEntries (⟨r.branches, r.head,
                  some (GObj.tree (if has_key r k then entRemove es k else es))⟩ :
                  Repo) = .ok (if has_key r k then entRemove es k else es) := by
                simp [currentEntries, current_tree_id, find_tree]
              have hnolk : entLookup (if has_key r k then entRemove es k else es) k =
                  none := by
                by_cases hk : has_key r k
                · simp [hk, entLookup_entRemove_self]
                · simp [hk, entLookup_eq_none_of_has_key_false r es k hce
                    (Bool.not_eq_true _ ▸ hk)]
              simp [key_changed, hc2, hlt2, hcur, mem_diffNames, hL, hnolk]
            · intro m les2 es2 hm hlt2' hcur2'
              simp at hlt2' hcur2'
              subst hlt2'
              subst hcur2'
              intro hdiff
              have hc2 : has_commits (⟨r.branches, r.head,
                  some (GObj.tree (if has_key r k then entRemove es k else es))⟩ :
                  Repo) = true := hhc
              have hlt2 : lastTreeEntries (⟨r.branches, r.head,
                  some (GObj.tree (if has_key r k then entRemove es k else es))⟩ :
                  Repo) = .ok les := hlt
              have hcur : currentEntries (⟨r.branches, r.head,
                  some (GObj.tree (if has_key r k then entRemove es k else es))⟩ :
                  Repo) = .ok (if has_key r k then entRemove es k else es) := by
                simp [currentEntries, current_tree_id, find_tree]
              have hmem := mem_diffNames_of_ne les
                (if has_key r k then entRemove es k else es) m
                (by rw [heq1 m hm]; exact hdiff)
              simp [key_changed, hc2, hlt2, hcur, hmem]
          | some p =>
            cases hab : as_blob p.1 with
            | none => simp [reset_key, hce, hhc, hlt, hL, hab] at h
            | some d =>
              simp [reset_key, hce, hhc, hlt, hL, hab] at h
              subst h
              have hmo : p.2 = 33188 := hmode les p.1 p.2 hlt hL
              have hp1 : p.1 = GObj.blob d := as_blob_eq_some p.1 d hab
              have hc2 : has_commits (⟨r.branches, r.head,
                  some (GObj.tree (entInsert
                    (if has_key r k then entRemove es k else es) k
                    (.blob d) 33188))⟩ : Repo) = true := hhc
              have hlt2 : lastTreeEntries (⟨r.branches, r.head,
                  some (GObj.tree (entInsert
                    (if has_key r k then entRemove es k else es) k
                    (.blob d) 33188))⟩ : Repo) = .ok les := hlt
              have hcur : currentEntries (⟨r.branches, r.head,
                  some (GObj.tree (entInsert
                    (if has_key r k then entRemove es k else es) k
                    (.blob d) 33188))⟩ : Repo) =
                  .ok (entInsert (if has_key r k then entRemove es k else es) k
                    (.blob d) 33188) := by
                simp [currentEntries, current_tree_id, find_tree]
              have hlk2 : entLookup (entInsert
                  (if has_key r k then entRemove es k else es) k (.blob d) 33188) k =
                  entLookup les k := by
                rw [entLookup_entInsert_self, hL, ← hp1, ← hmo]
              constructor
              · simp [key_changed, hc2, hlt2, hcur, mem_diffNames, hlk2]
              · intro m les2 es2 hm hlt2' hcur2'
                simp at hlt2' hcur2'
                subst hlt2'
                subst hcur2'
                intro hdiff
                have hmem := mem_diffNames_of_ne les
                  (entInsert (if has_key r k then entRemove es k else es) k
                    (.blob d) 33188) m
                  (by
                    rw [entLookup_entInsert_ne _ k (GObj.blob d) 33188 m hm,
                      heq1 m hm]
                    exact hdiff)
                simp [key_changed, hc2, hlt2, hcur, hmem]

/-- Witness for the amended C4: committing a staged tree makes changed()
false, and staging a genuinely different byte makes it true again. -/
theorem c4_change_detection_amended_witness :
    changed (⟨[("master", GObj.commit (.tree (.cons "a" (.blob [49]) 33188 .nil))
        .nil "m")], "master",
        some (GObj.tree (.cons "a" (.blob [49]) 33188 .nil))⟩ : Repo) = false ∧
    changed (⟨[("master", GObj.commit (.tree (.cons "a" (.blob [49]) 33188 .nil))
        .nil "m")], "master",
        some (GObj.tree (.cons "a" (.blob [50]) 33188 .nil))⟩ : Repo) = true :=
  ⟨c4_change_detection_amended.1 ⟨[], "master",
      some (GObj.tree (.cons "a" (.blob [49]) 33188 .nil))⟩ _ "m" rfl,
    c4_change_detection_amended.2.1 ⟨[("master",
        GObj.commit (.tree (.cons "a" (.blob [49]) 33188 .nil)) .nil "m")], "master",
        some (GObj.tree (.cons "a" (.blob [49]) 33188 .nil))⟩ _ "a" [50] rfl
      (Or.inr ⟨.cons "a" (.blob [49]) 33188 .nil, rfl, by decide⟩)⟩

/-- C5: with no commits, changed() is true exactly when a pending tree exists
and that tree is non-empty, and key_changed degrades to has_key. -/
theorem c5_no_commits_change_detection (r : Repo) (name : String)
    (h : has_commits r = false) :
    (changed r = true ↔ ∃ es, r.tree_id = some (GObj.tree es) ∧ es ≠ .nil) ∧
    key_changed r name = has_key r name := by
  constructor
  · cases ht : r.tree_id with
    | none => simp [changed, h, ht]
    | some id =>
      cases id with
      | blob d =>
        simp [changed, h, ht, len, keys, currentEntries, current_tree_id, find_tree]
      | commit t p m =>
        simp [changed, h, ht, len, keys, currentEntries, current_tree_id, find_tree]
      | tree es =>
        simp [changed, h, ht, len, keys, currentEntries, current_tree_id, find_tree,
          entNames_length_pos_iff]
  · simp [key_changed, h]

/-- Witness for C5: a commitless repository with a staged non-empty tree. -/
theorem c5_no_commits_change_detection_witness :
    (changed (⟨[], "master", some (GObj.tree (.cons "a" (.blob []) 33188 .nil))⟩ : Repo) =
        true ↔
      ∃ es, (⟨[], "master", some (GObj.tree (.cons "a" (.blob []) 33188 .nil))⟩ :
          Repo).tree_id = some (GObj.tree es) ∧ es ≠ .nil) ∧
    key_changed (⟨[], "master", some (GObj.tree (.cons "a" (.blob []) 33188 .nil))⟩ :
        Repo) "a" =
      has_key (⟨[], "master", some (GObj.tree (.cons "a" (.blob []) 33188 .nil))⟩ :
        Repo) "a" :=
  c5_no_commits_change_detection _ "a" rfl

/-- C6: reset clears the pending tree reference, leaves the store state (the
branch refs and HEAD) untouched, and restores keys() to the last-committed key
set, or to the empty set when there are no commits. -/
theorem c6_reset_restores_committed (r : Repo) :
    reset r = .ok (⟨r.branches, r.head, none⟩ : Repo) ∧
    (has_commits r = false → keys (⟨r.branches, r.head, none⟩ : Repo) = []) ∧
    (∀ les, lastTreeEntries r = .ok les →
       keys (⟨r.branches, r.head, none⟩ : Repo) = entNames les) := by
  refine ⟨rfl, ?_, ?_⟩
  · intro h
    have h2 : has_commits (⟨r.branches, r.head, none⟩ : Repo) = false := h
    simp [keys, currentEntries, current_tree_id, h2, empty_tree_id, find_tree, entNames]
  · intro les hles
    have hc2 : has_commits (⟨r.branches, r.head, none⟩ : Repo) = true :=
      lastTreeEntries_ok_has_commits r les hles
    have hlt2 : lastTreeEntries (⟨r.branches, r.head, none⟩ : Repo) = .ok les := hles
    have hcur : currentEntries (⟨r.branches, r.head, none⟩ : Repo) = .ok les := by
      simp [currentEntries, current_tree_id, hc2]
      exact hlt2
    simp [keys, hcur]

/-- Witness for C6: resetting a repository with one committed key and a staged
extra key restores exactly the committed key set. -/
theorem c6_reset_restores_committed_witness :
    reset (⟨[("master",
        GObj.commit (.tree (.cons "a" (.blob [49]) 33188 .nil)) .nil "")], "master",
        some (GObj.tree (.cons "b" (.blob [50]) 33188
          (.cons "a" (.blob [49]) 33188 .nil)))⟩ : Repo) =
      .ok ⟨[("master", GObj.commit (.tree (.cons "a" (.blob [49]) 33188 .nil)) .nil "")],
        "master", none⟩ ∧
    keys (⟨[("master", GObj.commit (.tree (.cons "a" (.blob [49]) 33188 .nil)) .nil "")],
        "master", none⟩ : Repo) = ["a"] :=
  ⟨(c6_reset_restores_committed _).1,
    (c6_reset_restores_committed ⟨[("master",
      GObj.commit (.tree (.cons "a" (.blob [49]) 33188 .nil)) .nil "")], "master",
      some (GObj.tree (.cons "b" (.blob [50]) 33188
        (.cons "a" (.blob [49]) 33188 .nil)))⟩).2.2 (.cons "a" (.blob [49]) 33188 .nil)
      rfl⟩

/-- C7 counterexample: with a committed tree whose entry sub is itself a tree
(a Malformed object for this store: a tree entry that is not a blob),
reset_key of sub panics on the as_blob unwrap instead of returning an error
result, so the claim that every store failure is surfaced as an error is
false. -/
theorem c7_counterexample :
    reset_key (⟨[("master", GObj.commit (.tree (.cons "sub" (.tree .nil) 16384 .nil))
        .nil "m")], "master", none⟩ : Repo) "sub" = .panicked := by decide

/-- C7 amended: every store-touching operation surfaces internal store
failures as returned error results and leaves the handle unchanged on failure
(errors happen strictly before the single final pending-reference update),
except that reset_key panics, rather than returning an error, exactly when the
last committed tree still holds the key but its entry is not a blob. The
characterizations below show the error results are exactly the propagated
store failures. -/
theorem c7_failure_surfacing_amended :
    (∀ (r : Repo) (n : String) (v : Bytes) (e : GitError),
       insert_key r n v = .error e ↔ currentEntries r = .error e) ∧
    (∀ (r : Repo) (n : String) (e : GitError), remove_key r n ≠ .error e) ∧
    (∀ (r : Repo) (e : GitError), remove r = .error e ↔ currentEntries r = .error e) ∧
    (∀ (r : Repo) (n : String),
       reset_key r n = .panicked ↔
         ∃ es les p, currentEntries r = .ok es ∧ lastTreeEntries r = .ok les ∧
           entLookup les n = some p ∧ as_blob p.1 = none) ∧
    (∀ (r : Repo) (n : String) (e : GitError),
       reset_key r n = .err e ↔
         (currentEntries r = .error e ∨
           ∃ es, currentEntries r = .ok es ∧ has_commits r = true ∧
             lastTreeEntries r = .error e)) ∧
    (∀ (r : Repo) (msg : String) (e : GitError),
       commit r msg = .error e ↔
         (current_tree_id r = .error e ∨
           ∃ tid, current_tree_id r = .ok tid ∧
             (find_tree tid = .error e ∨
               ∃ tes pc, find_tree tid = .ok tes ∧ has_commits r = true ∧
                 last_commit_id r = .ok pc ∧ find_commit pc = .error e))) := by
  refine ⟨?_, ?_, ?_, ?_, ?_, ?_⟩
  · intro r n v e
    constructor
    · intro h
      cases hce : currentEntries r with
      | error e2 =>
        simp [insert_key, hce] at h
        subst h
        rfl
      | ok es => simp [insert_key, hce] at h
    · intro h
      simp [insert_key, h]
  · intro r n e h
    by_cases hk : has_key r n
    · cases hce : currentEntries r with
      | error e2 =>
        have hkf : has_key r n = false := by simp [has_key, hce]
        rw [hkf] at hk
        simp at hk
      | ok es => simp [remove_key, hk, hce] at h
    · simp [remove_key, hk] at h
  · intro r e
    constructor
    · intro h
      cases hce : currentEntries r with
      | error e2 =>
        simp [remove, hce] at h
        subst h
        rfl
      | ok es => simp [remove, hce] at h
    · intro h
      simp [remove, h]
  · intro r n
    constructor
    · intro h
      cases hce : currentEntries r with
      | error e => simp [reset_key, hce] at h
      | ok es =>
        cases hhc : has_commits r with
        | false => simp [reset_key, hce, hhc] at h
        | true =>
          cases hlt : lastTreeEntries r with
          | error e => simp [reset_key, hce, hhc, hlt] at h
          | ok les =>
            cases hL : entLookup les n with
            | none => simp [reset_key, hce, hhc, hlt, hL] at h
            | some p =>
              cases hab : as_blob p.1 with
              | some d => simp [reset_key, hce, hhc, hlt, hL, hab] at h
              | none => exact ⟨es, les, p, rfl, rfl, hL, hab⟩
    · rintro ⟨es, les, p, hce, hlt, hL, hab⟩
      have hhc : has_commits r = true := lastTreeEntries_ok_has_commits r les hlt
      simp [reset_key, hce, hhc, hlt, hL, hab]
  · intro r n e
    constructor
    · intro h
      cases hce : currentEntries r with
      | error e2 =>
        simp [reset_key, hce] at h
        subst h
        exact Or.inl rfl
      | ok es =>
        cases hhc : has_commits r with
        | false => simp [reset_key, hce, hhc] at h
        | true =>
          cases hlt : lastTreeEntries r with
          | error e2 =>
            simp [reset_key, hce, hhc, hlt] at h
            subst h
            exact Or.inr ⟨es, rfl, rfl, rfl⟩
          | ok les =>
            cases hL : entLookup les n with
            | none => simp [reset_key, hce, hhc, hlt, hL] at h
            | some p =>
              cases hab : as_blob p.1 with
              | some d => simp [reset_key, hce, hhc, hlt, hL, hab] at h
              | none => simp [reset_key, hce, hhc, hlt, hL, hab] at h
    · rintro (hce | ⟨es, hce, hhc, hlt⟩)
      · simp [reset_key, hce]
      · simp [reset_key, hce, hhc, hlt]
  · intro r msg e
    constructor
    · intro h
      cases hct : current_tree_id r with
      | error e2 =>
        simp [commit, hct] at h
        subst h
        exact Or.inl rfl
      | ok tid =>
        cases hft : find_tree tid with
        | error e2 =>
          simp [commit, hct, hft] at h
          subst h
          exact Or.inr ⟨tid, rfl, Or.inl hft⟩
        | ok tes =>
          cases hhc : has_commits r with
          | false => simp [commit, hct, hft, hhc] at h
          | true =>
            cases hlc : assocLookup r.branches r.head with
            | none =>
              rw [has_commits_eq] at hhc
              simp [hlc] at hhc
            | some pc =>
              cases hfc : find_commit pc with
              | error e2 =>
                simp [commit, hct, hft, hhc, last_commit_id, hlc, hfc] at h
                subst h
                exact Or.inr ⟨tid, rfl, Or.inr ⟨tes, pc, hft, rfl,
                  by simp [last_commit_id, hlc], hfc⟩⟩
              | ok x => simp [commit, hct, hft, hhc, last_commit_id, hlc, hfc] at h
    · rintro (hct | ⟨tid, hct, hft | ⟨tes, pc, hft, hhc, hlc, hfc⟩⟩)
      · simp [commit, hct]
      · simp [commit, hct, hft]
      · simp [commit, hct, hft, hhc, hlc, hfc]

/-- Witness for the amended C7: on a handle whose pending reference is a blob
instead of a tree, insert_key fails with exactly the current-tree resolution
error. -/
theorem c7_failure_surfacing_amended_witness :
    insert_key (⟨[], "master", some (GObj.blob [])⟩ : Repo) "a" [] =
        .error .notFound ↔
      currentEntries (⟨[], "master", some (GObj.blob [])⟩ : Repo) =
        .error .notFound :=
  c7_failure_surfacing_amended.1 ⟨[], "master", some (GObj.blob [])⟩ "a" [] .notFound

/-- C8: the read-only queries degrade to their safe defaults (false, empty,
none) whenever the underlying store lookups fail, instead of propagating the
error. -/
theorem c8_read_only_defaults (r : Repo) (name : String) :
    (∀ e, currentEntries r = .error e → has_key r name = false ∧ keys r = []) ∧
    (assocLookup r.branches r.head = none → branch r = none) ∧
    (∀ e, has_commits r = true → lastTreeEntries r = .error e →
       changed r = false ∧ key_changed r name = false) ∧
    (∀ e les, has_commits r = true → lastTreeEntries r = .ok les →
       currentEntries r = .error e → changed r = false ∧ key_changed r name = false) := by
  refine ⟨?_, ?_, ?_, ?_⟩
  · intro e h
    exact ⟨by simp [has_key, h], by simp [keys, h]⟩
  · intro h
    simp [branch, h]
  · intro e hc hl
    exact ⟨by simp [changed, hc, hl], by simp [key_changed, hc, hl]⟩
  · intro e les hc hl hcur
    exact ⟨by simp [changed, hc, hl, hcur], by simp [key_changed, hc, hl, hcur]⟩

/-- Witness for C8: a pending reference whose object is not a tree makes the
current-tree lookup fail, and the queries answer false and the empty list. -/
theorem c8_read_only_defaults_witness :
    currentEntries (⟨[], "master", some (GObj.blob [])⟩ : Repo) = .error .notFound ∧
    has_key (⟨[], "master", some (GObj.blob [])⟩ : Repo) "a" = false ∧
    keys (⟨[], "master", some (GObj.blob [])⟩ : Repo) = [] ∧
    branch (⟨[], "master", some (GObj.blob [])⟩ : Repo) = none :=
  ⟨rfl,
    ((c8_read_only_defaults ⟨[], "master", some (GObj.blob [])⟩ "a").1 .notFound rfl).1,
    ((c8_read_only_defaults ⟨[], "master", some (GObj.blob [])⟩ "a").1 .notFound rfl).2,
    (c8_read_only_defaults ⟨[], "master", some (GObj.blob [])⟩ "a").2.1 rfl⟩

/-- C2: round-trip: staging a key, committing, and reopening the store at the
same path yields the staged value for that key. -/
theorem c2_round_trip (r r1 r2 : Repo) (k : String) (v : Bytes) (msg : String)
    (h1 : insert_key r k v = .ok r1) (h2 : commit r1 msg = .ok r2) :
    key (reopen r2) k = some v := by
  cases hce : currentEntries r with
  | error e => simp [insert_key, hce] at h1
  | ok es =>
    simp [insert_key, hce] at h1
    subst h1
    cases hhc : has_commits (⟨r.branches, r.head,
        some (GObj.tree (entInsert es k (.blob v) 33188))⟩ : Repo) with
    | false =>
      simp [commit, current_tree_id, find_tree, hhc] at h2
      subst h2
      exact key_reopen_after r.branches r.head es k v .nil msg
    | true =>
      cases hlc : assocLookup r.branches r.head with
      | none =>
        rw [has_commits_eq] at hhc
        simp [hlc] at hhc
      | some pc =>
        cases hfc : find_commit pc with
        | error e =>
          simp [commit, current_tree_id, find_tree, hhc, last_commit_id, hlc, hfc] at h2
        | ok x =>
          simp [commit, current_tree_id, find_tree, hhc, last_commit_id, hlc, hfc] at h2
          subst h2
          exact key_reopen_after r.branches r.head es k v (.cons pc .nil) msg

/-- Witness for C2: inserting a key into a fresh repository, committing and
reopening returns the inserted bytes. -/
theorem c2_round_trip_witness :
    insert_key (⟨[], "master", none⟩ : Repo) "a" [49] =
      .ok ⟨[], "master", some (GObj.tree (.cons "a" (.blob [49]) 33188 .nil))⟩ ∧
    commit (⟨[], "master", some (GObj.tree (.cons "a" (.blob [49]) 33188 .nil))⟩ :
        Repo) "m" =
      .ok ⟨[("master", GObj.commit (.tree (.cons "a" (.blob [49]) 33188 .nil)) .nil "m")],
        "master", some (GObj.tree (.cons "a" (.blob [49]) 33188 .nil))⟩ ∧
    key (reopen ⟨[("master",
        GObj.commit (.tree (.cons "a" (.blob [49]) 33188 .nil)) .nil "m")],
        "master", some (GObj.tree (.cons "a" (.blob [49]) 33188 .nil))⟩) "a" =
      some [49] :=
  ⟨rfl, rfl, c2_round_trip ⟨[], "master", none⟩ _ _ "a" [49] "m" rfl rfl⟩

/-- C3: a successful reset_key reverts the key to its last committed value,
observed through a reopened handle: absent when it was never committed,
otherwise the committed blob content, while every other key and the whole
branch state are untouched. -/
theorem c3_reset_key_restores (r rp : Repo) (name : String)
    (h : reset_key r name = .ok rp) :
    key rp name = key (reopen r) name ∧
    (∀ m, m ≠ name → key rp m = key r m) ∧
    rp.branches = r.branches ∧ rp.head = r.head := by
  cases hce : currentEntries r with
  | error e => simp [reset_key, hce] at h
  | ok es =>
    cases hhc : has_commits r with
    | false =>
      simp [reset_key, hce, hhc] at h
      subst h
      refine ⟨?_, ?_, rfl, rfl⟩
      · rw [key_reopen_no_commits r hhc name, key_pending_tree]
        by_cases hk : has_key r name
        · simp [hk, entLookup_entRemove_self]
        · simp [hk, entLookup_eq_none_of_has_key_false r es name hce
            (Bool.not_eq_true _ ▸ hk)]
      · intro m hm
        rw [key_pending_tree]
        have hlk : entLookup (if has_key r name then entRemove es name else es) m =
            entLookup es m := by
          by_cases hk : has_key r name
          · simp [hk, entLookup_entRemove_ne es name m hm]
          · simp [hk]
        rw [hlk]
        simp [key, hce]
    | true =>
      cases hlt : lastTreeEntries r with
      | error e => simp [reset_key, hce, hhc, hlt] at h
      | ok les =>
        cases hL : entLookup les name with
        | none =>
          simp [reset_key, hce, hhc, hlt, hL] at h
          subst h
          refine ⟨?_, ?_, rfl, rfl⟩
          · rw [key_reopen_of_last r les hhc hlt name, hL, key_pending_tree]
            by_cases hk : has_key r name
            · simp [hk, entLookup_entRemove_self]
            · simp [hk, entLookup_eq_none_of_has_key_false r es name hce
                (Bool.not_eq_true _ ▸ hk)]
          · intro m hm
            rw [key_pending_tree]
            have hlk : entLookup (if has_key r name then entRemove es name else es) m =
                entLookup es m := by
              by_cases hk : has_key r name
              · simp [hk, entLookup_entRemove_ne es name m hm]
              · simp [hk]
            rw [hlk]
            simp [key, hce]
        | some p =>
          cases hab : as_blob p.1 with
          | none => simp [reset_key, hce, hhc, hlt, hL, hab] at h
          | some d =>
            simp [reset_key, hce, hhc, hlt, hL, hab] at h
            subst h
            refine ⟨?_, ?_, rfl, rfl⟩
            · rw [key_reopen_of_last r les hhc hlt name, hL, key_pending_tree,
                entLookup_entInsert_self]
              obtain ⟨o, mo⟩ := p
              have ho : o = GObj.blob d := as_blob_eq_some o d hab
              subst ho
              simp [as_blob]
            · intro m hm
              rw [key_pending_tree,
                entLookup_entInsert_ne _ name (GObj.blob d) 33188 m hm]
              have hlk : entLookup (if has_key r name then entRemove es name else es) m =
                  entLookup es m := by
                by_cases hk : has_key r name
                · simp [hk, entLookup_entRemove_ne es name m hm]
                · simp [hk]
              rw [hlk]
              simp [key, hce]

/-- Witness for C3: resetting a staged edit of a committed key reverts it to
the committed bytes and keeps the other staged key intact. -/
theorem c3_reset_key_restores_witness :
    reset_key (⟨[("master", GObj.commit (.tree (.cons "a" (.blob [49]) 33188 .nil))
        .nil "")], "master",
        some (GObj.tree (.cons "a" (.blob [50]) 33188
          (.cons "b" (.blob [51]) 33188 .nil)))⟩ : Repo) "a" =
      .ok ⟨[("master", GObj.commit (.tree (.cons "a" (.blob [49]) 33188 .nil)) .nil "")],
        "master",
        some (GObj.tree (.cons "b" (.blob [51]) 33188
          (.cons "a" (.blob [49]) 33188 .nil)))⟩ ∧
    key (⟨[("master", GObj.commit (.tree (.cons "a" (.blob [49]) 33188 .nil)) .nil "")],
        "master",
        some (GObj.tree (.cons "b" (.blob [51]) 33188
          (.cons "a" (.blob [49]) 33188 .nil)))⟩ : Repo) "a" =
      key (reopen ⟨[("master",
        GObj.commit (.tree (.cons "a" (.blob [49]) 33188 .nil)) .nil "")], "master",
        some (GObj.tree (.cons "a" (.blob [50]) 33188
          (.cons "b" (.blob [51]) 33188 .nil)))⟩) "a" :=
  ⟨rfl,
    (c3_reset_key_restores ⟨[("master",
      GObj.commit (.tree (.cons "a" (.blob [49]) 33188 .nil)) .nil "")], "master",
      some (GObj.tree (.cons "a" (.blob [50]) 33188
        (.cons "b" (.blob [51]) 33188 .nil)))⟩ _ "a" rfl).1⟩

/-- C9: switch_branch fails on a never-committed repository; on success it
repoints HEAD at the name, creating the branch at the current HEAD commit
exactly when it did not exist, and it is idempotent when the name is already
the active branch. -/
theorem c9_switch_branch_spec (r rp : Repo) (name : String) :
    (r.branches = [] → switch_branch r name = .error .unborn) ∧
    (switch_branch r name = .ok rp →
       rp.head = name ∧ rp.tree_id = r.tree_id ∧
       (has_branch r name = true → rp.branches = r.branches) ∧
       (has_branch r name = false →
          ∃ c x, last_commit_id r = .ok c ∧ find_commit c = .ok x ∧
            rp.branches = assocInsert r.branches name c)) ∧
    (r.head = name → has_branch r name = true → switch_branch r name = .ok r) := by
  refine ⟨?_, ?_, ?_⟩
  · intro hb
    have hnb : has_branch r name = false := by simp [has_branch, branches, hb]
    simp [switch_branch, hnb, last_commit_id, hb, assocLookup]
  · intro h
    cases hbr : has_branch r name with
    | true =>
      simp [switch_branch, hbr] at h
      subst h
      exact ⟨rfl, rfl, fun _ => rfl, fun hcontra => by simp at hcontra⟩
    | false =>
      cases hlc : last_commit_id r with
      | error e => simp [switch_branch, hbr, hlc] at h
      | ok c =>
        cases hfc : find_commit c with
        | error e => simp [switch_branch, hbr, hlc, hfc] at h
        | ok x =>
          simp [switch_branch, hbr, hlc, hfc] at h
          subst h
          exact ⟨rfl, rfl, fun hcontra => by simp at hcontra,
            fun _ => ⟨c, x, rfl, hfc, rfl⟩⟩
  · intro hh hbr
    obtain ⟨b, hd, t⟩ := r
    simp only at hh
    subst hh
    simp [switch_branch, hbr]

/-- Witness for C9: switching on a never-committed repository fails. -/
theorem c9_switch_branch_spec_witness :
    switch_branch (⟨[], "master", none⟩ : Repo) "foo" = .error .unborn :=
  (c9_switch_branch_spec ⟨[], "master", none⟩ ⟨[], "master", none⟩ "foo").1 rfl

/-- C10: removing an absent key is a complete no-op that still succeeds: no
store write happens and the whole handle state, the pending tree reference
included, is returned unchanged. -/
theorem c10_remove_key_absent_noop (r : Repo) (name : String)
    (h : has_key r name = false) : remove_key r name = .ok r := by
  simp [remove_key, h]

/-- Witness for C10: removing a key from an empty fresh repository. -/
theorem c10_remove_key_absent_noop_witness :
    has_key (⟨[], "master", none⟩ : Repo) "zz" = false ∧
    remove_key (⟨[], "master", none⟩ : Repo) "zz" = .ok ⟨[], "master", none⟩ :=
  ⟨rfl, c10_remove_key_absent_noop ⟨[], "master", none⟩ "zz" rfl⟩

end Gitmap
